import Mathlib

namespace RustSep

/-! # Usage-accounting subsystem of rust-sep: shallow embedding

Each definition below is translated from a function of the repository; the
file and line range appear in its doc comment.  Machine integers (i64) are
modelled as Int.  The atomic operations performed by a single call are
modelled as one sequential update; truly interleaved executions are modelled
by the small-step system further down. -/

/-- Per-key accumulator: MetricsValue (src/src/metrics.rs lines 16 to 19);
LinkMetricsData (src/src/tasks/link_metrics.rs lines 18 to 21) has the same
two fields. -/
structure MetricsValue where
  hits : Int
  last_access_s : Int
deriving DecidableEq, Repr

/-- MetricsValue::new (src/src/metrics.rs lines 57 to 63) and the identical
LinkMetricsData::new: hits starts at 1, last_access_s at the given clock
reading. -/
def MetricsValue.new (last_access_s : Int) : MetricsValue :=
  { hits := 1, last_access_s := last_access_s }

/-- Association-list model of dashmap::DashMap with MetricsValue entries
(MetricsMap of src/src/metrics.rs, CollectionMetricsMap of
src/src/tasks/link_metrics.rs), generalised over the key type. -/
abbrev AMap (κ : Type) := List (κ × MetricsValue)

/-- Lookup of the unique entry for a key. -/
def AMap.find? {κ : Type} [DecidableEq κ] : AMap κ → κ → Option MetricsValue
  | [], _ => none
  | (k₁, v) :: rest, k => if k₁ = k then some v else AMap.find? rest k

/-- Store a value for a key: replace the existing entry in place, or append a
fresh entry when the key is absent. -/
def AMap.setv {κ : Type} [DecidableEq κ] : AMap κ → κ → MetricsValue → AMap κ
  | [], k, v => [(k, v)]
  | (k₁, v₁) :: rest, k, v =>
      if k₁ = k then (k, v) :: rest else (k₁, v₁) :: AMap.setv rest k v

/-- Metrics::record_hit (src/src/metrics.rs lines 28 to 50) and the identical
LinkMetrics::record_hit (src/src/tasks/link_metrics.rs lines 57 to 77), one
call in isolation, with the clock reading now_s passed as an argument:
entry(k).or_insert(MetricsValue::new(now_s)), then hits.fetch_add(1), then
the compare-exchange loop that raises last_access_s to now_s when now_s is
ahead of the stored value. -/
def record_hit {κ : Type} [DecidableEq κ] (m : AMap κ) (k : κ) (now_s : Int) :
    AMap κ :=
  let val₀ := (AMap.find? m k).getD (MetricsValue.new now_s)
  let val₁ := { val₀ with hits := val₀.hits + 1 }
  let val₂ :=
    if now_s > val₁.last_access_s then { val₁ with last_access_s := now_s }
    else val₁
  AMap.setv m k val₂

/-- A sequence of record_hit calls for one key, with the clock readings
observed by the successive calls given as a list. -/
def run_hits {κ : Type} [DecidableEq κ] (m : AMap κ) (k : κ) (ts : List Int) :
    AMap κ :=
  ts.foldl (fun acc t => record_hit acc k t) m

/-- Maximum of the clock readings t :: ts, written as the fold the
compare-exchange loop computes over a call sequence. -/
def listMax1 (t : Int) (ts : List Int) : Int := ts.foldl max t

/-! ## Swap buffer (Metrics / LinkMetrics, the ArcSwap of the current map)

The ArcSwap holds a reference to the active table.  Tables that have ever
existed are kept in a store indexed by creation order, so that a statement
can speak about a table after it has been swapped out: tables is the store,
active_id the index held by the ArcSwap, and returned lists the indices
handed back to callers of swap_map, in order. -/

structure Buf (κ : Type) where
  tables : List (AMap κ)
  active_id : Nat
  returned : List Nat
deriving DecidableEq, Repr

/-- The table stored at index i (empty when i is out of range). -/
def Buf.table {κ : Type} (s : Buf κ) (i : Nat) : AMap κ := s.tables.getD i []

/-- Basic shape of a reachable buffer: the active index points into the
store. -/
def Buf.wf {κ : Type} (s : Buf κ) : Prop := s.active_id < s.tables.length

/-- Metrics::swap_map (src/src/metrics.rs lines 52 to 54) and the identical
LinkMetrics::swap_map (src/src/tasks/link_metrics.rs lines 79 to 81):
self.current.swap(Arc::new(DashMap::new())) — a fresh empty table becomes
active and the previous table is returned to the caller. -/
def swap_map {κ : Type} (s : Buf κ) : Nat × Buf κ :=
  (s.active_id,
   { tables := s.tables ++ [[]]
     active_id := s.tables.length
     returned := s.returned ++ [s.active_id] })

/-- One record_hit call executed with no interleaving: the pointer load and
the map update happen back to back against the active table. -/
def buf_record_hit {κ : Type} [DecidableEq κ] (s : Buf κ) (k : κ) (now_s : Int) :
    Buf κ :=
  { s with
    tables := s.tables.set s.active_id (record_hit (s.table s.active_id) k now_s) }

/-- A sequence of uninterleaved record_hit calls (key and clock reading per
call). -/
def buf_run_hits {κ : Type} [DecidableEq κ] (s : Buf κ) (l : List (κ × Int)) :
    Buf κ :=
  l.foldl (fun acc e => buf_record_hit acc e.1 e.2) s

/-! ## Fine-grained interleaving of record_hit with swap_map

record_hit is two atomic steps: the load of the ArcSwap pointer
(self.current.load()) and the update of the loaded map (entry / fetch_add /
compare-exchange, atomic per key).  swap_map is one atomic step.  A thread
that loaded the pointer before a swap still updates the old table through
its guard afterwards; the interleaving model makes that window explicit. -/

/-- Per-thread program state: which table index the thread loaded. -/
abbrev Loaded := List (Nat × Nat)

def Loaded.lookup : Loaded → Nat → Option Nat
  | [], _ => none
  | (t₁, i) :: rest, t => if t₁ = t then some i else Loaded.lookup rest t

def Loaded.store : Loaded → Nat → Nat → Loaded
  | [], t, i => [(t, i)]
  | (t₁, i₁) :: rest, t, i =>
      if t₁ = t then (t, i) :: rest else (t₁, i₁) :: Loaded.store rest t i

/-- Whole-system state: the swap buffer plus each thread-held guard. -/
structure Sys (κ : Type) where
  buf : Buf κ
  loaded : Loaded
deriving DecidableEq, Repr

/-- Atomic events of the interleaved execution. -/
inductive Ev (κ : Type) where
  | load (tid : Nat)
  | applyHit (tid : Nat) (k : κ) (now_s : Int)
  | swap
deriving DecidableEq, Repr

/-- Small-step semantics.  load reads the current pointer; applyHit performs
the map update against the table the thread loaded (wherever that table now
is); swap is swap_map. -/
def Sys.step {κ : Type} [DecidableEq κ] (s : Sys κ) : Ev κ → Sys κ
  | .load tid => { s with loaded := Loaded.store s.loaded tid s.buf.active_id }
  | .applyHit tid k now_s =>
      match Loaded.lookup s.loaded tid with
      | some i =>
          { s with
            buf := { s.buf with
                     tables := s.buf.tables.set i
                       (record_hit (s.buf.table i) k now_s) } }
      | none => s
  | .swap => { s with buf := (swap_map s.buf).2 }

/-- Run a schedule of events. -/
def Sys.run {κ : Type} [DecidableEq κ] (s : Sys κ) (evs : List (Ev κ)) : Sys κ :=
  evs.foldl Sys.step s

/-- The state right after Metrics::new: one empty table, active, nothing
returned, no guards held. -/
def Sys.init : Sys Int := { buf := { tables := [[]], active_id := 0, returned := [] }, loaded := [] }

/-! ## Batch flusher over the drained table (src/src/tasks/link_metrics.rs)

The drained DashMap is iterated once; its iteration order is represented by
a list of entries.  A pushed column triple (id, hits, last_access) is kept
row-major: one row per pushed entry, the three SQL array parameters being
the three projections of the row list. -/

/-- EntityKey (src/src/tasks/link_metrics.rs lines 40 to 44). -/
inductive EntityKey where
  | link (id : Int)
  | collection (id : Int)
deriving DecidableEq, Repr

/-- Destination table of a flushed chunk: daily_metrics (Link keys) or
collection_metrics (Collection keys). -/
inductive Dest where
  | link
  | collection
deriving DecidableEq, Repr

/-- One row of a chunk: (entity id, hits, last_access as unix seconds). -/
abbrev Row := Int × Int × Int

/-- One durable batch operation: a chunk flushed to one destination table. -/
structure DbOp where
  dest : Dest
  rows : List Row
deriving DecidableEq, Repr

/-- Smallest unix timestamp the time crate accepts in
OffsetDateTime::from_unix_timestamp (year -9999). -/
def UNIX_TS_MIN : Int := -377705116800

/-- Largest unix timestamp the time crate accepts in
OffsetDateTime::from_unix_timestamp (year 9999). -/
def UNIX_TS_MAX : Int := 253402300799

/-- Whether OffsetDateTime::from_unix_timestamp succeeds on t. -/
def unix_ts_valid (t : Int) : Bool := decide (UNIX_TS_MIN ≤ t ∧ t ≤ UNIX_TS_MAX)

/-- flush_to_db / flush_collection_to_db on the success path of the durable
store, seen as the list of durable operations performed: empty columns
return Ok immediately and perform no durable operation
(src/src/tasks/link_metrics.rs lines 170 to 172 and 224 to 226). -/
def flush_call (dest : Dest) (rows : List Row) : List DbOp :=
  if rows.isEmpty then [] else [{ dest := dest, rows := rows }]

/-- Loop state of process_batch_task: the pending link and collection column
rows and the durable operations performed so far. -/
structure BatchSt where
  link_rows : List Row
  col_rows : List Row
  ops : List DbOp
deriving DecidableEq, Repr

/-- CHUNK_SIZE of process_batch_task (src/src/tasks/link_metrics.rs line 93). -/
def PBT_CHUNK_SIZE : Nat := 500

/-- One iteration of the entry loop of process_batch_task
(src/src/tasks/link_metrics.rs lines 113 to 152): skip entries with zero
hits, fail when the stored seconds do not convert back to a timestamp,
otherwise push onto the column of the matching key kind and flush that
column once it holds CHUNK_SIZE rows. -/
def pbt_step (s : BatchSt) (e : EntityKey × MetricsValue) : Except Unit BatchSt :=
  let v := e.2
  if v.hits == 0 then .ok s
  else if unix_ts_valid v.last_access_s = false then .error ()
  else
    match e.1 with
    | .link id =>
        let rows := s.link_rows ++ [(id, v.hits, v.last_access_s)]
        if rows.length == PBT_CHUNK_SIZE then
          .ok { s with link_rows := [], ops := s.ops ++ flush_call .link rows }
        else .ok { s with link_rows := rows }
    | .collection id =>
        let rows := s.col_rows ++ [(id, v.hits, v.last_access_s)]
        if rows.length == PBT_CHUNK_SIZE then
          .ok { s with col_rows := [], ops := s.ops ++ flush_call .collection rows }
        else .ok { s with col_rows := rows }

/-- The entry loop of process_batch_task. -/
def pbt_aux : List (EntityKey × MetricsValue) → BatchSt → Except Unit BatchSt
  | [], s => .ok s
  | e :: rest, s =>
      match pbt_step s e with
      | .error u => .error u
      | .ok s₁ => pbt_aux rest s₁

/-- process_batch_task (src/src/tasks/link_metrics.rs lines 92 to 162) on a
drained table given in iteration order, with every durable write
succeeding: early return on an empty map, the entry loop, then the two
final flushes of the remaining columns (link first, then collection).  The
Ok value is the list of durable chunk operations performed, in order. -/
def process_batch_task (entries : List (EntityKey × MetricsValue)) :
    Except Unit (List DbOp) :=
  if entries.isEmpty then .ok []
  else
    match pbt_aux entries { link_rows := [], col_rows := [], ops := [] } with
    | .error u => .error u
    | .ok s =>
        .ok (s.ops ++ flush_call .link s.link_rows ++ flush_call .collection s.col_rows)

/-- The rows a full run must send to the link table: every drained Link
entry with nonzero hits, in iteration order. -/
def link_rows_of (entries : List (EntityKey × MetricsValue)) : List Row :=
  entries.filterMap fun e =>
    match e.1 with
    | .link id => if e.2.hits == 0 then none else some (id, e.2.hits, e.2.last_access_s)
    | .collection _ => none

/-- The rows a full run must send to the collection table. -/
def col_rows_of (entries : List (EntityKey × MetricsValue)) : List Row :=
  entries.filterMap fun e =>
    match e.1 with
    | .link _ => none
    | .collection id => if e.2.hits == 0 then none else some (id, e.2.hits, e.2.last_access_s)

/-- All rows sent to one destination across a list of durable operations,
in order. -/
def ops_rows (ops : List DbOp) (d : Dest) : List Row :=
  ((ops.filter fun op => op.dest == d).map DbOp.rows).flatten

/-- The Ok value of an Except, or [] on error. -/
def ok_ops (x : Except Unit (List DbOp)) : List DbOp :=
  match x with
  | .ok l => l
  | .error _ => []

/-! ## Periodic flush with a fallible durable store
(src/src/tasks/flush_metrics.rs)

process_batch drains link entries in chunks of CHUNK_SIZE = 50 and flushes
each chunk with flush_to_db, whose durable write can fail.  Failure of the
n-th durable chunk write of a cycle is modelled by failAt = some n.  The
run loop swaps the map each tick, processes it, and logs an error without
rethrowing it. -/

/-- CHUNK_SIZE of src/src/tasks/flush_metrics.rs line 10. -/
def FM_CHUNK_SIZE : Nat := 50

/-- Loop state of process_batch: pending column rows and the number of
durable chunk writes performed so far. -/
structure FmSt where
  rows : List Row
  count : Nat
deriving DecidableEq, Repr

/-- The entry loop of process_batch (src/src/tasks/flush_metrics.rs lines 38
to 63): skip zero-hit entries, fail on an unconvertible timestamp, push the
row, and flush through flush_to_db once the columns hold CHUNK_SIZE rows.
Returns the chunks whose durable write was attempted, in order, and either
the loop state or the error that ended the cycle. -/
def fm_aux (failAt : Option Nat) :
    List (Int × MetricsValue) → FmSt → List (List Row) × Except Unit FmSt
  | [], s => ([], .ok s)
  | e :: rest, s =>
      let v := e.2
      if v.hits == 0 then fm_aux failAt rest s
      else if unix_ts_valid v.last_access_s = false then ([], .error ())
      else
        let rows := s.rows ++ [(e.1, v.hits, v.last_access_s)]
        if rows.length == FM_CHUNK_SIZE then
          if failAt == some s.count then ([rows], .error ())
          else
            let (att, r) := fm_aux failAt rest { rows := [], count := s.count + 1 }
            (rows :: att, r)
        else fm_aux failAt rest { s with rows := rows }

/-- process_batch (src/src/tasks/flush_metrics.rs lines 26 to 70): early
return on an empty map, the entry loop, then the final flush_to_db of the
remaining rows (which performs no durable write when empty).  Returns the
attempted durable chunk writes and the cycle result. -/
def fm_process_batch (failAt : Option Nat) (entries : List (Int × MetricsValue)) :
    List (List Row) × Except Unit Unit :=
  if entries.isEmpty then ([], .ok ())
  else
    match fm_aux failAt entries { rows := [], count := 0 } with
    | (att, .error u) => (att, .error u)
    | (att, .ok s) =>
        if s.rows.isEmpty then (att, .ok ())
        else if failAt == some s.count then (att ++ [s.rows], .error ())
        else (att ++ [s.rows], .ok ())

/-- One tick of run (src/src/tasks/flush_metrics.rs lines 16 to 23): the
swapped-out map is processed and an error is caught and logged with
tracing::error rather than rethrown.  Output: the attempted chunk writes
and whether an error was logged. -/
def fm_cycle (failAtOne : Option Nat) (m : List (Int × MetricsValue)) :
    List (List Row) × Bool :=
  let (att, r) := fm_process_batch failAtOne m
  (att, r matches .error _)

/-- run (src/src/tasks/flush_metrics.rs lines 13 to 24) over finitely many
ticks: each tick swaps out the active map (the successive swapped-out
contents are the input list) and runs one cycle; the loop goes on after a
logged error. -/
def fm_run (failAt : Nat → Option Nat) :
    List (List (Int × MetricsValue)) → List (List (List Row) × Bool)
  | [] => []
  | m :: rest => fm_cycle (failAt 0) m :: fm_run (fun n => failAt (n + 1)) rest

/-! ## Partition maintainer (src/src/tasks/link_metrics.rs lines 272 to 320)

create_partitions_task reads CURRENT_DATE then, for each offset 0..=3,
issues CREATE TABLE IF NOT EXISTS for the daily_metrics partition and then
for the collection_metrics partition of that day.  Each statement execution
can fail; the question mark operator rethrows immediately.  Days are day
numbers (Int). -/

/-- Which partitioned table a creation statement targets. -/
inductive PTable where
  | daily
  | collection
deriving DecidableEq, Repr

/-- One CREATE TABLE IF NOT EXISTS statement: target table and the
half-open day range [day_from, day_to). -/
structure PartStmt where
  table : PTable
  day_from : Int
  day_to : Int
deriving DecidableEq, Repr

/-- The eight creation statements of one tick, in issue order: for each
offset, the daily_metrics statement then the collection_metrics statement. -/
def part_stmts (today : Int) : List PartStmt :=
  (List.range 4).flatMap fun o =>
    [{ table := .daily, day_from := today + o, day_to := today + o + 1 },
     { table := .collection, day_from := today + o, day_to := today + o + 1 }]

/-- Execute statements in order; orc n tells whether the n-th executed
statement succeeds; a failure rethrows at once, so the failing statement is
the last one attempted. -/
def exec_stmts (orc : Nat → Bool) :
    List PartStmt → Nat → List PartStmt × Except Unit Unit
  | [], _ => ([], .ok ())
  | st :: rest, n =>
      if orc n then
        let (att, r) := exec_stmts orc rest (n + 1)
        (st :: att, r)
      else ([st], .error ())

/-- create_partitions_task (src/src/tasks/link_metrics.rs lines 275 to 320):
fetch CURRENT_DATE (fetch_ok says whether that query succeeds), then run
the eight creation statements with early rethrow.  Returns the attempted
statements and the task result. -/
def create_partitions_task (fetch_ok : Bool) (orc : Nat → Bool) (today : Int) :
    List PartStmt × Except Unit Unit :=
  if fetch_ok then exec_stmts orc (part_stmts today) 0 else ([], .error ())

/-! ## Scheduler tick timing (src/src/scheduler.rs lines 23 to 53)

spawn_task loops on tokio::time::interval(interval_s).  The first tick of a
tokio interval completes immediately; tick k targets k * interval_s after
registration and, with the default missed-tick behaviour, fires as soon as
it is awaited when the target is already past.  The loop awaits the job
body to completion before awaiting the next tick, so invocation k + 1
starts at the later of its tick target and the end of invocation k.
Durations of the successive invocations are given as a list (0 when the
list is exhausted). -/

/-- Start time of the k-th invocation (0-based) of a job spawned with
interval interval_s whose invocation durations are ds. -/
def invocation_start (interval_s : Nat) (ds : List Nat) : Nat → Nat
  | 0 => 0
  | k + 1 =>
      max ((k + 1) * interval_s) (invocation_start interval_s ds k + ds.getD k 0)

/-! ## Usage metrics hot-path counter (src/src/app/usage_metrics.rs)

Metrics::log computes week_day = date.weekday().number_from_monday() and
hour = time.hour(), then increments
self.week_days[week_day].hours[hour].<category>.  week_days has length 7
and hours length 24.  The model returns the pair of indices used, or none
when an index is out of bounds, which in Rust is a panic. -/

/-- Day of the week, as the time crate reports it. -/
inductive Weekday where
  | monday
  | tuesday
  | wednesday
  | thursday
  | friday
  | saturday
  | sunday
deriving DecidableEq, Repr

/-- time::Weekday::number_from_monday: Monday is 1, ..., Sunday is 7. -/
def Weekday.number_from_monday : Weekday → Nat
  | .monday => 1
  | .tuesday => 2
  | .wednesday => 3
  | .thursday => 4
  | .friday => 5
  | .saturday => 6
  | .sunday => 7

/-- The indexing performed by Metrics::log (src/src/app/usage_metrics.rs
lines 29 to 48) for the current weekday and hour: some (week_day, hour)
when both array accesses are in bounds, none when an access panics. -/
def log_index (wd : Weekday) (hour : Nat) : Option (Nat × Nat) :=
  let w := wd.number_from_monday
  if w < 7 then (if hour < 24 then some (w, hour) else none) else none

/-! ## Durable flush transaction (src/src/tasks/link_metrics.rs lines 164 to
270)

flush_to_db begins one transaction, executes the daily_metrics upsert, then
the links_main last_seen set-if-stale update, then commits; any error
rethrows, dropping the transaction, which rolls it back.  Statements read
and write the staged transaction state; only the commit publishes it.
flush_collection_to_db is the same against collection_metrics and
collections. -/

/-- Durable state touched by the two flush functions: the two metric tables
keyed by (day, entity id) with (hits, last_access) values, and the two
last_seen columns keyed by entity id. -/
structure Db where
  daily_metrics : List ((Int × Int) × (Int × Int))
  links_last_seen : List (Int × Int)
  collection_metrics : List ((Int × Int) × (Int × Int))
  collections_last_seen : List (Int × Int)
deriving DecidableEq, Repr

/-- INSERT .. ON CONFLICT (day, id) DO UPDATE SET hits = hits + EXCLUDED.hits,
last_access = GREATEST(existing, incoming), applied row by row. -/
def upsert_rows (tbl : List ((Int × Int) × (Int × Int))) (today : Int)
    (rows : List Row) : List ((Int × Int) × (Int × Int)) :=
  rows.foldl
    (fun t r =>
      match t.find? (fun p => p.1 == (today, r.1)) with
      | some _ =>
          t.map fun p =>
            if p.1 == (today, r.1) then (p.1, (p.2.1 + r.2.1, max p.2.2 r.2.2))
            else p
      | none => t ++ [((today, r.1), (r.2.1, r.2.2))])
    tbl

/-- UPDATE .. SET last_seen = CURRENT_DATE WHERE id IN ids AND
last_seen < CURRENT_DATE. -/
def set_last_seen (tbl : List (Int × Int)) (today : Int) (ids : List Int) :
    List (Int × Int) :=
  tbl.map fun p => if p.1 ∈ ids ∧ p.2 < today then (p.1, today) else p

/-- Failure points of one flush transaction: the begin, each of the two
statements, and the commit. -/
structure TxOrc where
  begin_ok : Bool
  s1_ok : Bool
  s2_ok : Bool
  commit_ok : Bool
deriving DecidableEq, Repr

def TxOrc.all_ok (o : TxOrc) : Bool :=
  o.begin_ok && o.s1_ok && o.s2_ok && o.commit_ok

/-- flush_to_db (src/src/tasks/link_metrics.rs lines 164 to 216): early Ok
on empty columns; otherwise begin a transaction, stage the daily_metrics
upsert, stage the links_main last_seen update, and publish both at commit.
Any failure rethrows with the transaction dropped, so the durable state is
the original one.  Returns the durable state afterwards and the result. -/
def flush_to_db (o : TxOrc) (db : Db) (today : Int) (rows : List Row) :
    Db × Except Unit Unit :=
  if rows.isEmpty then (db, .ok ())
  else if o.begin_ok = false then (db, .error ())
  else
    let staged₁ := { db with daily_metrics := upsert_rows db.daily_metrics today rows }
    if o.s1_ok = false then (db, .error ())
    else
      let staged₂ :=
        { staged₁ with
          links_last_seen := set_last_seen staged₁.links_last_seen today (rows.map Prod.fst) }
      if o.s2_ok = false then (db, .error ())
      else if o.commit_ok = false then (db, .error ())
      else (staged₂, .ok ())

/-- flush_collection_to_db (src/src/tasks/link_metrics.rs lines 218 to 270):
the same transaction against collection_metrics and collections. -/
def flush_collection_to_db (o : TxOrc) (db : Db) (today : Int) (rows : List Row) :
    Db × Except Unit Unit :=
  if rows.isEmpty then (db, .ok ())
  else if o.begin_ok = false then (db, .error ())
  else
    let staged₁ :=
      { db with collection_metrics := upsert_rows db.collection_metrics today rows }
    if o.s1_ok = false then (db, .error ())
    else
      let staged₂ :=
        { staged₁ with
          collections_last_seen :=
            set_last_seen staged₁.collections_last_seen today (rows.map Prod.fst) }
      if o.s2_ok = false then (db, .error ())
      else if o.commit_ok = false then (db, .error ())
      else (staged₂, .ok ())

/-! ## Concrete states used to instantiate the theorems -/

/-- A buffer holding one accumulator: the state after one record_hit on a
fresh Metrics. -/
def exBuf1 : Buf Int :=
  { tables := [[(5, { hits := 2, last_access_s := 100 })]]
    active_id := 0
    returned := [] }

/-- A system in which thread 0 loaded table 0 just before a swap completed:
table 1 is active, table 0 already returned. -/
def exSys1 : Sys Int :=
  { buf := { tables := [[], []], active_id := 1, returned := [0] }
    loaded := [(0, 0)] }

/-- A small drained table used to instantiate the flusher theorems: two link
entries and two collection entries, one with zero hits. -/
def exEntries : List (EntityKey × MetricsValue) :=
  [(.link 1, { hits := 3, last_access_s := 100 }),
   (.collection 2, { hits := 0, last_access_s := 50 }),
   (.link 3, { hits := 1, last_access_s := -5 }),
   (.collection 9, { hits := 2, last_access_s := 7 })]

/-! ## Lemmas about the per-key accumulator -/

theorem AMap.find?_setv_self {κ : Type} [DecidableEq κ] (m : AMap κ) (k : κ)
    (v : MetricsValue) : AMap.find? (AMap.setv m k v) k = some v := by
  induction m with
  | nil => simp [AMap.setv, AMap.find?]
  | cons p rest ih =>
      obtain ⟨k₁, v₁⟩ := p
      by_cases h : k₁ = k
      · simp [AMap.setv, AMap.find?, h]
      · simp [AMap.setv, AMap.find?, h, ih]

theorem AMap.find?_setv_ne {κ : Type} [DecidableEq κ] (m : AMap κ) (k k₁ : κ)
    (v : MetricsValue) (h : k₁ ≠ k) :
    AMap.find? (AMap.setv m k v) k₁ = AMap.find? m k₁ := by
  have h' : ¬ k = k₁ := fun h₁ => h h₁.symm
  induction m with
  | nil => simp [AMap.setv, AMap.find?, h']
  | cons p rest ih =>
      obtain ⟨k₂, v₂⟩ := p
      by_cases h₂ : k₂ = k
      · subst h₂
        simp [AMap.setv, AMap.find?, h']
      · simp [AMap.setv, AMap.find?, h₂, ih]

theorem record_hit_find_absent {κ : Type} [DecidableEq κ] (m : AMap κ) (k : κ)
    (t : Int) (h : AMap.find? m k = none) :
    AMap.find? (record_hit m k t) k = some { hits := 2, last_access_s := t } := by
  unfold record_hit
  rw [h]
  simp [MetricsValue.new, AMap.find?_setv_self]

theorem record_hit_find_present {κ : Type} [DecidableEq κ] (m : AMap κ) (k : κ)
    (t : Int) (v : MetricsValue) (h : AMap.find? m k = some v) :
    AMap.find? (record_hit m k t) k
      = some { hits := v.hits + 1, last_access_s := max v.last_access_s t } := by
  unfold record_hit
  rw [h]
  by_cases hlt : v.last_access_s < t
  · simp [AMap.find?_setv_self, hlt, max_eq_right (le_of_lt hlt)]
  · simp [AMap.find?_setv_self, hlt, max_eq_left (not_lt.mp hlt)]

theorem run_hits_find_present {κ : Type} [DecidableEq κ] (k : κ)
    (ts : List Int) :
    ∀ (m : AMap κ) (v : MetricsValue), AMap.find? m k = some v →
      AMap.find? (run_hits m k ts) k
        = some { hits := v.hits + (ts.length : Int)
                 last_access_s := listMax1 v.last_access_s ts } := by
  induction ts with
  | nil => intro m v h; simpa [run_hits, listMax1] using h
  | cons t ts ih =>
      intro m v h
      have h₁ := record_hit_find_present m k t v h
      have h₂ := ih (record_hit m k t) _ h₁
      have harith : v.hits + 1 + (ts.length : Int) = v.hits + ((ts.length : Int) + 1) := by
        ring
      simpa [run_hits, listMax1, harith] using h₂

/-! ## Lemmas about listMax1 -/

theorem listMax1_mem (t : Int) (ts : List Int) : listMax1 t ts ∈ t :: ts := by
  induction ts generalizing t with
  | nil => simp [listMax1]
  | cons u ts ih =>
      have h : listMax1 (max t u) ts ∈ (max t u) :: ts := ih (max t u)
      have hfold : listMax1 t (u :: ts) = listMax1 (max t u) ts := rfl
      rw [hfold]
      rcases List.mem_cons.mp h with h₁ | h₁
      · rcases max_choice t u with hm | hm
        · rw [h₁, hm]; exact List.mem_cons_self _ _
        · rw [h₁, hm]
          exact List.mem_cons_of_mem _ (List.mem_cons_self _ _)
      · exact List.mem_cons_of_mem _ (List.mem_cons_of_mem _ h₁)

theorem init_le_listMax1 (t : Int) (ts : List Int) : t ≤ listMax1 t ts := by
  induction ts generalizing t with
  | nil => simp [listMax1]
  | cons u ts ih =>
      calc t ≤ max t u := le_max_left t u
        _ ≤ listMax1 (max t u) ts := ih (max t u)
        _ = listMax1 t (u :: ts) := rfl

theorem le_listMax1 (x t : Int) (ts : List Int) (h : x ∈ t :: ts) :
    x ≤ listMax1 t ts := by
  induction ts generalizing t with
  | nil => simp_all [listMax1]
  | cons u ts ih =>
      rcases List.mem_cons.mp h with h₁ | h₁
      · subst h₁
        calc x ≤ max x u := le_max_left x u
          _ ≤ listMax1 (max x u) ts := init_le_listMax1 _ _
          _ = listMax1 x (u :: ts) := rfl
      · rcases List.mem_cons.mp h₁ with h₂ | h₂
        · subst h₂
          calc x ≤ max t x := le_max_right t x
            _ ≤ listMax1 (max t x) ts := init_le_listMax1 _ _
            _ = listMax1 t (x :: ts) := rfl
        · have := ih (max t u) (List.mem_cons_of_mem _ h₂)
          simpa [listMax1] using this

theorem listMax1_perm (t₁ t₂ : Int) (ts₁ ts₂ : List Int)
    (h : (t₁ :: ts₁).Perm (t₂ :: ts₂)) : listMax1 t₁ ts₁ = listMax1 t₂ ts₂ := by
  refine le_antisymm ?_ ?_
  · exact le_listMax1 _ _ _ (h.mem_iff.mp (listMax1_mem t₁ ts₁))
  · exact le_listMax1 _ _ _ (h.mem_iff.mpr (listMax1_mem t₂ ts₂))

/-! ## C1 -/

/-- C1: the claim states that record_hit creates the accumulator with
hits = 1 when the key is absent and increments it otherwise, so n calls
store hits = n.  The code creates the entry with hits = 1 via
or_insert(MetricsValue::new(now_s)) and then unconditionally runs
hits.fetch_add(1), so the creating call stores 2 and n calls store n + 1:
one call on a fresh table stores hits = 2, three calls store 4. -/
theorem c1_first_hit_double_count :
    AMap.find? (record_hit ([] : AMap Int) 7 100) 7
      = some { hits := 2, last_access_s := 100 }
  ∧ AMap.find? (run_hits ([] : AMap Int) 7 [100, 100, 100]) 7
      = some { hits := 4, last_access_s := 100 } := by
  constructor <;> decide

/-! ## C4 -/

/-- C4: after any sequence of record_hit calls for a key on a fresh table,
the stored last_access_s equals the maximum of the clock readings observed
by the calls, for every reordering of the same calls; and appending one
more call never decreases it. -/
theorem c4_last_access_is_max (k t u : Int) (ts l₂ : List Int)
    (hp : (t :: ts).Perm l₂) :
    (AMap.find? (run_hits ([] : AMap Int) k (t :: ts)) k).map
        MetricsValue.last_access_s = some (listMax1 t ts)
  ∧ (AMap.find? (run_hits ([] : AMap Int) k l₂) k).map
        MetricsValue.last_access_s = some (listMax1 t ts)
  ∧ listMax1 t ts ≤ listMax1 t (ts ++ [u]) := by
  have key : ∀ (t' : Int) (ts' : List Int),
      (AMap.find? (run_hits ([] : AMap Int) k (t' :: ts')) k).map
        MetricsValue.last_access_s = some (listMax1 t' ts') := by
    intro t' ts'
    have h₀ : AMap.find? (record_hit ([] : AMap Int) k t') k
        = some { hits := 2, last_access_s := t' } :=
      record_hit_find_absent [] k t' rfl
    have h₁ := run_hits_find_present k ts' (record_hit ([] : AMap Int) k t') _ h₀
    have hrw : run_hits ([] : AMap Int) k (t' :: ts')
        = run_hits (record_hit ([] : AMap Int) k t') k ts' := rfl
    rw [hrw, h₁]
    rfl
  refine ⟨key t ts, ?_, ?_⟩
  · cases l₂ with
    | nil => exact absurd hp.length_eq (by simp)
    | cons t₂ ts₂ =>
        rw [key t₂ ts₂, ← listMax1_perm t t₂ ts ts₂ hp]
  · have : listMax1 t (ts ++ [u]) = max (listMax1 t ts) u := by
      simp [listMax1, List.foldl_append]
    rw [this]
    exact le_max_left _ _

/-- Witness for C4 at a concrete call sequence and a reordering of it. -/
theorem c4_witness :
    (AMap.find? (run_hits ([] : AMap Int) 1 [5, 3, 9]) 1).map
        MetricsValue.last_access_s = some (listMax1 5 [3, 9])
  ∧ (AMap.find? (run_hits ([] : AMap Int) 1 [9, 5, 3]) 1).map
        MetricsValue.last_access_s = some (listMax1 5 [3, 9])
  ∧ listMax1 5 [3, 9] ≤ listMax1 5 ([3, 9] ++ [4]) :=
  c4_last_access_is_max 1 5 4 [3, 9] [9, 5, 3] (by decide)

/-! ## Lemmas about the table store -/

theorem getD_set_self {α : Type} (l : List α) (i : Nat) (a d : α)
    (h : i < l.length) : (l.set i a).getD i d = a := by
  rw [List.getD_eq_getD_get?, List.get?_eq_getElem?,
    List.getElem?_set_eq_of_lt a h]
  rfl

theorem getD_set_ne {α : Type} (l : List α) (i j : Nat) (a d : α)
    (h : i ≠ j) : (l.set i a).getD j d = l.getD j d := by
  rw [List.getD_eq_getD_get?, List.getD_eq_getD_get?, List.get?_eq_getElem?,
    List.get?_eq_getElem?, List.getElem?_set_ne h]

theorem buf_run_hits_fields {κ : Type} [DecidableEq κ] (l : List (κ × Int)) :
    ∀ s : Buf κ,
      (buf_run_hits s l).active_id = s.active_id
    ∧ (buf_run_hits s l).returned = s.returned
    ∧ (buf_run_hits s l).tables.length = s.tables.length
    ∧ ∀ j, j ≠ s.active_id → Buf.table (buf_run_hits s l) j = Buf.table s j := by
  induction l with
  | nil => intro s; exact ⟨rfl, rfl, rfl, fun _ _ => rfl⟩
  | cons e l ih =>
      intro s
      have hstep : buf_run_hits s (e :: l)
          = buf_run_hits (buf_record_hit s e.1 e.2) l := rfl
      obtain ⟨ha, hr, hlen, htab⟩ := ih (buf_record_hit s e.1 e.2)
      refine ⟨by rw [hstep, ha]; rfl, by rw [hstep, hr]; rfl, ?_, ?_⟩
      · rw [hstep, hlen]
        simp [buf_record_hit]
      · intro j hj
        rw [hstep, htab j hj]
        show ((s.tables.set s.active_id _).getD j []) = s.tables.getD j []
        exact getD_set_ne _ _ _ _ _ (fun h => hj h.symm)

/-! ## C3 -/

/-- C3: swap_map returns the previous table and installs a fresh empty one;
right after the swap the active table is empty and the returned table keeps
its contents; any sequence of subsequent record_hit calls changes only the
new active table, leaving the returned table (and every other table) as it
was. -/
theorem c3_swap_out_isolates (s : Buf Int) (l : List (Int × Int)) (j : Nat)
    (hwf : s.wf) (hj : j ≠ s.tables.length) :
    (swap_map s).1 = s.active_id
  ∧ Buf.table (swap_map s).2 ((swap_map s).2.active_id) = []
  ∧ Buf.table (swap_map s).2 s.active_id = Buf.table s s.active_id
  ∧ Buf.table (buf_run_hits (swap_map s).2 l) s.active_id = Buf.table s s.active_id
  ∧ Buf.table (buf_run_hits (swap_map s).2 l) j = Buf.table (swap_map s).2 j
  ∧ (buf_run_hits (swap_map s).2 l).active_id = (swap_map s).2.active_id := by
  obtain ⟨ha, _, _, htab⟩ := buf_run_hits_fields l (swap_map s).2
  have hactive₂ : (swap_map s).2.active_id = s.tables.length := rfl
  have h₂ : Buf.table (swap_map s).2 ((swap_map s).2.active_id) = [] := by
    show (s.tables ++ [[]]).getD s.tables.length [] = []
    rw [List.getD_append_right _ _ _ _ (le_refl _)]
    simp
  have h₃ : Buf.table (swap_map s).2 s.active_id = Buf.table s s.active_id := by
    show (s.tables ++ [[]]).getD s.active_id [] = s.tables.getD s.active_id []
    exact List.getD_append _ _ _ _ hwf
  have hne : s.active_id ≠ s.tables.length := Nat.ne_of_lt hwf
  refine ⟨rfl, h₂, h₃, ?_, ?_, ha⟩
  · rw [htab s.active_id (by rw [hactive₂]; exact hne), h₃]
  · exact htab j (by rw [hactive₂]; exact hj)

/-- Witness for C3: a buffer with one hit recorded, then a swap, then two
more hits. -/
theorem c3_witness :
    (swap_map exBuf1).1 = exBuf1.active_id
  ∧ Buf.table (swap_map exBuf1).2 ((swap_map exBuf1).2.active_id) = []
  ∧ Buf.table (swap_map exBuf1).2 exBuf1.active_id = Buf.table exBuf1 exBuf1.active_id
  ∧ Buf.table (buf_run_hits (swap_map exBuf1).2 [(5, 200), (7, 300)]) exBuf1.active_id
      = Buf.table exBuf1 exBuf1.active_id
  ∧ Buf.table (buf_run_hits (swap_map exBuf1).2 [(5, 200), (7, 300)]) 0
      = Buf.table (swap_map exBuf1).2 0
  ∧ (buf_run_hits (swap_map exBuf1).2 [(5, 200), (7, 300)]).active_id
      = (swap_map exBuf1).2.active_id :=
  c3_swap_out_isolates exBuf1 [(5, 200), (7, 300)] 0
    (by simp [Buf.wf, exBuf1]) (by decide)

/-! ## C2 -/

/-- C2 counterexample: a record_hit that loads the buffer pointer, then two
swap_map calls complete, then the hit is applied.  The hit lands in table 0,
which was already returned by the first (earlier) swap; with respect to the
second swap, the hit is in neither the table it returned (table 1) nor the
table active after it (table 2).  This refutes the claim that no hit is
ever applied to a table already returned by an earlier swap_out. -/
theorem c2_counterexample :
    (Sys.run Sys.init [.load 0, .swap, .swap, .applyHit 0 7 100]).buf.returned = [0, 1]
  ∧ Buf.table (Sys.run Sys.init [.load 0, .swap, .swap, .applyHit 0 7 100]).buf 0
      = [(7, { hits := 2, last_access_s := 100 })]
  ∧ Buf.table (Sys.run Sys.init [.load 0, .swap, .swap, .applyHit 0 7 100]).buf 1 = []
  ∧ Buf.table (Sys.run Sys.init [.load 0, .swap, .swap, .applyHit 0 7 100]).buf 2 = []
  ∧ (Sys.run Sys.init [.load 0, .swap, .swap, .applyHit 0 7 100]).buf.active_id = 2 := by
  decide

theorem Loaded.lookup_store_self (l : Loaded) (t i : Nat) :
    Loaded.lookup (Loaded.store l t i) t = some i := by
  induction l with
  | nil => simp [Loaded.store, Loaded.lookup]
  | cons p rest ih =>
      obtain ⟨t₁, i₁⟩ := p
      by_cases h : t₁ = t
      · simp [Loaded.store, Loaded.lookup, h]
      · simp [Loaded.store, Loaded.lookup, h, ih]

/-- C2 amended: every record_hit update is applied to exactly one table, the
one whose pointer the calling thread loaded, and every other table is left
unchanged; the active pointer and the list of returned tables are untouched.
When the load is immediately followed by the update (no interleaved swap),
the hit therefore lands in the currently active table.  A call whose load
precedes a swap_map instead updates the table that swap already returned,
as the counterexample shows. -/
theorem c2_apply_targets_loaded_table (s : Sys Int) (tid : Nat) (k now : Int)
    (i j : Nat) (hl : Loaded.lookup s.loaded tid = some i)
    (hi : i < s.buf.tables.length) (hj : j ≠ i)
    (hwf : s.buf.active_id < s.buf.tables.length) :
    Buf.table (s.step (.applyHit tid k now)).buf i
      = record_hit (Buf.table s.buf i) k now
  ∧ Buf.table (s.step (.applyHit tid k now)).buf j = Buf.table s.buf j
  ∧ (s.step (.applyHit tid k now)).buf.active_id = s.buf.active_id
  ∧ (s.step (.applyHit tid k now)).buf.returned = s.buf.returned
  ∧ Buf.table ((s.step (.load tid)).step (.applyHit tid k now)).buf s.buf.active_id
      = record_hit (Buf.table s.buf s.buf.active_id) k now := by
  have hstep : s.step (.applyHit tid k now)
      = { s with buf := { s.buf with
            tables := s.buf.tables.set i (record_hit (Buf.table s.buf i) k now) } } := by
    simp [Sys.step, hl]
  have h₅ : Buf.table ((s.step (.load tid)).step (.applyHit tid k now)).buf
      s.buf.active_id = record_hit (Buf.table s.buf s.buf.active_id) k now := by
    have : (s.step (.load tid)).step (.applyHit tid k now)
        = { s.step (.load tid) with buf := { s.buf with
              tables := s.buf.tables.set s.buf.active_id
                (record_hit (Buf.table s.buf s.buf.active_id) k now) } } := by
      simp [Sys.step, Loaded.lookup_store_self]
    rw [this]
    show (s.buf.tables.set s.buf.active_id _).getD s.buf.active_id [] = _
    exact getD_set_self _ _ _ _ hwf
  refine ⟨?_, ?_, by rw [hstep], by rw [hstep], h₅⟩
  · rw [hstep]
    show (s.buf.tables.set i _).getD i [] = _
    exact getD_set_self _ _ _ _ hi
  · rw [hstep]
    show (s.buf.tables.set i _).getD j [] = s.buf.tables.getD j []
    exact getD_set_ne _ _ _ _ _ (fun h => hj h.symm)

/-- Witness for C2 amended: a thread that loaded the already-returned table
0 while table 1 is active. -/
theorem c2_apply_witness :
    Buf.table (exSys1.step (.applyHit 0 7 100)).buf 0
      = record_hit (Buf.table exSys1.buf 0) 7 100
  ∧ Buf.table (exSys1.step (.applyHit 0 7 100)).buf 1 = Buf.table exSys1.buf 1
  ∧ (exSys1.step (.applyHit 0 7 100)).buf.active_id = exSys1.buf.active_id
  ∧ (exSys1.step (.applyHit 0 7 100)).buf.returned = exSys1.buf.returned
  ∧ Buf.table ((exSys1.step (.load 0)).step (.applyHit 0 7 100)).buf exSys1.buf.active_id
      = record_hit (Buf.table exSys1.buf exSys1.buf.active_id) 7 100 :=
  c2_apply_targets_loaded_table exSys1 0 7 100 0 1
    (by decide) (by decide) (by decide) (by decide)

/-! ## Lemmas about flushed chunk operations -/

theorem ops_rows_append (ops₁ ops₂ : List DbOp) (d : Dest) :
    ops_rows (ops₁ ++ ops₂) d = ops_rows ops₁ d ++ ops_rows ops₂ d := by
  simp [ops_rows, List.filter_append]

theorem ops_rows_flush_self (d : Dest) (rows : List Row) :
    ops_rows (flush_call d rows) d = rows := by
  cases rows with
  | nil => simp [flush_call, ops_rows]
  | cons r rs => simp [flush_call, ops_rows]

theorem ops_rows_flush_other (d d' : Dest) (rows : List Row) (h : d ≠ d') :
    ops_rows (flush_call d rows) d' = [] := by
  cases rows with
  | nil => simp [flush_call, ops_rows]
  | cons r rs => simp [flush_call, ops_rows, h]

/-- Invariant of the entry loop of process_batch_task: the rows already
flushed to a destination followed by the pending rows of that destination
are exactly the nonzero-hit rows of that kind processed so far; pending
columns stay strictly below the chunk size; every flushed operation is
nonempty and at most the chunk size. -/
theorem pbt_aux_spec (l : List (EntityKey × MetricsValue)) :
    ∀ s : BatchSt,
      (∀ e ∈ l, unix_ts_valid e.2.last_access_s = true) →
      s.link_rows.length < PBT_CHUNK_SIZE →
      s.col_rows.length < PBT_CHUNK_SIZE →
      ∃ s₁, pbt_aux l s = .ok s₁
        ∧ ops_rows s₁.ops .link ++ s₁.link_rows
            = (ops_rows s.ops .link ++ s.link_rows) ++ link_rows_of l
        ∧ ops_rows s₁.ops .collection ++ s₁.col_rows
            = (ops_rows s.ops .collection ++ s.col_rows) ++ col_rows_of l
        ∧ s₁.link_rows.length < PBT_CHUNK_SIZE
        ∧ s₁.col_rows.length < PBT_CHUNK_SIZE
        ∧ ∀ op ∈ s₁.ops, op ∈ s.ops ∨ (op.rows ≠ [] ∧ op.rows.length ≤ PBT_CHUNK_SIZE) := by
  induction l with
  | nil =>
      intro s _ h₁ h₂
      exact ⟨s, rfl, by simp [link_rows_of], by simp [col_rows_of],
        h₁, h₂, fun op hop => Or.inl hop⟩
  | cons e rest ih =>
      intro s hval h₁ h₂
      obtain ⟨key, v⟩ := e
      have hv : unix_ts_valid v.last_access_s = true :=
        hval _ (List.mem_cons_self _ _)
      have hval' : ∀ e ∈ rest, unix_ts_valid e.2.last_access_s = true :=
        fun e he => hval e (List.mem_cons_of_mem _ he)
      by_cases h0 : v.hits = 0
      · have hred : pbt_aux ((key, v) :: rest) s = pbt_aux rest s := by
          simp [pbt_aux, pbt_step, h0]
        have hlrw : link_rows_of ((key, v) :: rest) = link_rows_of rest := by
          cases key <;> simp [link_rows_of, h0]
        have hcrw : col_rows_of ((key, v) :: rest) = col_rows_of rest := by
          cases key <;> simp [col_rows_of, h0]
        obtain ⟨s₁, heq, hl, hc, p₁, p₂, pops⟩ := ih s hval' h₁ h₂
        exact ⟨s₁, by rw [hred, heq], by rw [hl, hlrw], by rw [hc, hcrw],
          p₁, p₂, pops⟩
      · cases key with
        | link id =>
            have hlrw : link_rows_of ((EntityKey.link id, v) :: rest)
                = (id, v.hits, v.last_access_s) :: link_rows_of rest := by
              simp [link_rows_of, h0]
            have hcrw : col_rows_of ((EntityKey.link id, v) :: rest)
                = col_rows_of rest := by
              simp [col_rows_of]
            by_cases hfull : s.link_rows.length + 1 = PBT_CHUNK_SIZE
            · have hred : pbt_aux ((EntityKey.link id, v) :: rest) s
                  = pbt_aux rest
                      ⟨[], s.col_rows,
                       s.ops ++ flush_call .link (s.link_rows ++ [(id, v.hits, v.last_access_s)])⟩ := by
                simp [pbt_aux, pbt_step, h0, hv, hfull]
              obtain ⟨s₁, heq, hl, hc, p₁, p₂, pops⟩ :=
                ih ⟨[], s.col_rows,
                    s.ops ++ flush_call .link (s.link_rows ++ [(id, v.hits, v.last_access_s)])⟩
                  hval' (by simp [PBT_CHUNK_SIZE]) h₂
              refine ⟨s₁, by rw [hred, heq], ?_, ?_, p₁, p₂, ?_⟩
              · rw [hl, hlrw]
                simp only [ops_rows_append, ops_rows_flush_self]
                simp [List.append_assoc]
              · rw [hc, hcrw]
                simp only [ops_rows_append]
                rw [ops_rows_flush_other .link .collection _ (by simp)]
                simp
              · intro op hop
                rcases pops op hop with hin | hnew
                · rcases List.mem_append.mp hin with hmem | hmem
                  · exact Or.inl hmem
                  · right
                    have hne : (s.link_rows ++ [(id, v.hits, v.last_access_s)]).isEmpty
                        = false := by
                      simp
                    have hop' : op
                        = (⟨Dest.link, s.link_rows ++ [(id, v.hits, v.last_access_s)]⟩ : DbOp) := by
                      simpa [flush_call, hne] using hmem
                    rw [hop']
                    refine ⟨by simp, ?_⟩
                    simp only [List.length_append, List.length_singleton]
                    exact Nat.le_of_eq hfull
                · exact Or.inr hnew
            · have hred : pbt_aux ((EntityKey.link id, v) :: rest) s
                  = pbt_aux rest
                      ⟨s.link_rows ++ [(id, v.hits, v.last_access_s)], s.col_rows, s.ops⟩ := by
                simp [pbt_aux, pbt_step, h0, hv, hfull]
              have hlen : (s.link_rows ++ [(id, v.hits, v.last_access_s)]).length
                  < PBT_CHUNK_SIZE := by
                simp only [List.length_append, List.length_singleton]
                exact lt_of_le_of_ne (Nat.succ_le_of_lt h₁) hfull
              obtain ⟨s₁, heq, hl, hc, p₁, p₂, pops⟩ :=
                ih ⟨s.link_rows ++ [(id, v.hits, v.last_access_s)], s.col_rows, s.ops⟩
                  hval' hlen h₂
              refine ⟨s₁, by rw [hred, heq], ?_, ?_, p₁, p₂, pops⟩
              · rw [hl, hlrw]
                simp [List.append_assoc]
              · rw [hc, hcrw]
        | collection id =>
            have hlrw : link_rows_of ((EntityKey.collection id, v) :: rest)
                = link_rows_of rest := by
              simp [link_rows_of]
            have hcrw : col_rows_of ((EntityKey.collection id, v) :: rest)
                = (id, v.hits, v.last_access_s) :: col_rows_of rest := by
              simp [col_rows_of, h0]
            by_cases hfull : s.col_rows.length + 1 = PBT_CHUNK_SIZE
            · have hred : pbt_aux ((EntityKey.collection id, v) :: rest) s
                  = pbt_aux rest
                      ⟨s.link_rows, [],
                       s.ops ++ flush_call .collection (s.col_rows ++ [(id, v.hits, v.last_access_s)])⟩ := by
                simp [pbt_aux, pbt_step, h0, hv, hfull]
              obtain ⟨s₁, heq, hl, hc, p₁, p₂, pops⟩ :=
                ih ⟨s.link_rows, [],
                    s.ops ++ flush_call .collection (s.col_rows ++ [(id, v.hits, v.last_access_s)])⟩
                  hval' h₁ (by simp [PBT_CHUNK_SIZE])
              refine ⟨s₁, by rw [hred, heq], ?_, ?_, p₁, p₂, ?_⟩
              · rw [hl, hlrw]
                simp only [ops_rows_append]
                rw [ops_rows_flush_other .collection .link _ (by simp)]
                simp
              · rw [hc, hcrw]
                simp only [ops_rows_append, ops_rows_flush_self]
                simp [List.append_assoc]
              · intro op hop
                rcases pops op hop with hin | hnew
                · rcases List.mem_append.mp hin with hmem | hmem
                  · exact Or.inl hmem
                  · right
                    have hne : (s.col_rows ++ [(id, v.hits, v.last_access_s)]).isEmpty
                        = false := by
                      simp
                    have hop' : op
                        = (⟨Dest.collection, s.col_rows ++ [(id, v.hits, v.last_access_s)]⟩ : DbOp) := by
                      simpa [flush_call, hne] using hmem
                    rw [hop']
                    refine ⟨by simp, ?_⟩
                    simp only [List.length_append, List.length_singleton]
                    exact Nat.le_of_eq hfull
                · exact Or.inr hnew
            · have hred : pbt_aux ((EntityKey.collection id, v) :: rest) s
                  = pbt_aux rest
                      ⟨s.link_rows, s.col_rows ++ [(id, v.hits, v.last_access_s)], s.ops⟩ := by
                simp [pbt_aux, pbt_step, h0, hv, hfull]
              have hlen : (s.col_rows ++ [(id, v.hits, v.last_access_s)]).length
                  < PBT_CHUNK_SIZE := by
                simp only [List.length_append, List.length_singleton]
                exact lt_of_le_of_ne (Nat.succ_le_of_lt h₂) hfull
              obtain ⟨s₁, heq, hl, hc, p₁, p₂, pops⟩ :=
                ih ⟨s.link_rows, s.col_rows ++ [(id, v.hits, v.last_access_s)], s.ops⟩
                  hval' h₁ hlen
              refine ⟨s₁, by rw [hred, heq], ?_, ?_, p₁, p₂, pops⟩
              · rw [hl, hlrw]
              · rw [hc, hcrw]
                simp [List.append_assoc]

/-! ## C5 -/

/-- C5: on a flush cycle with a healthy durable store, process_batch_task
sends every drained entry with nonzero hits to durable storage exactly
once, Link entries to the link table and Collection entries to the
collection table, in chunks that are nonempty and of at most CHUNK_SIZE
rows; flushing an empty column list performs no durable operation and
succeeds. -/
theorem c5_chunks_route_each_entry_once (entries : List (EntityKey × MetricsValue))
    (hval : ∀ e ∈ entries, unix_ts_valid e.2.last_access_s = true) :
    (process_batch_task entries).isOk = true
  ∧ ops_rows (ok_ops (process_batch_task entries)) .link = link_rows_of entries
  ∧ ops_rows (ok_ops (process_batch_task entries)) .collection = col_rows_of entries
  ∧ (ok_ops (process_batch_task entries)).all
      (fun op => !op.rows.isEmpty && decide (op.rows.length ≤ PBT_CHUNK_SIZE)) = true
  ∧ flush_call .link [] = [] ∧ flush_call .collection [] = [] := by
  by_cases hemp : entries.isEmpty
  · have hnil : entries = [] := by simpa using hemp
    subst hnil
    exact ⟨rfl, rfl, rfl, rfl, rfl, rfl⟩
  · obtain ⟨s₁, heq, hl, hc, p₁, p₂, pops⟩ :=
      pbt_aux_spec entries ⟨[], [], []⟩ hval
        (by simp [PBT_CHUNK_SIZE]) (by simp [PBT_CHUNK_SIZE])
    simp only [ops_rows, List.filter_nil, List.map_nil, List.flatten_nil,
      List.nil_append, List.append_nil] at hl hc
    have hproc : process_batch_task entries
        = .ok (s₁.ops ++ flush_call .link s₁.link_rows
                ++ flush_call .collection s₁.col_rows) := by
      simp [process_batch_task, hemp, heq]
    have hops : ok_ops (process_batch_task entries)
        = s₁.ops ++ flush_call .link s₁.link_rows
          ++ flush_call .collection s₁.col_rows := by
      rw [hproc]
      rfl
    refine ⟨by rw [hproc]; rfl, ?_, ?_, ?_, rfl, rfl⟩
    · rw [hops, ops_rows_append, ops_rows_append, ops_rows_flush_self,
        ops_rows_flush_other .collection .link _ (by simp)]
      rw [List.append_nil]
      exact hl
    · rw [hops, ops_rows_append, ops_rows_append, ops_rows_flush_self,
        ops_rows_flush_other .link .collection _ (by simp)]
      rw [List.append_nil]
      exact hc
    · rw [hops, List.all_eq_true]
      intro op hop
      have hgood : op.rows ≠ [] ∧ op.rows.length ≤ PBT_CHUNK_SIZE := by
        rcases List.mem_append.mp hop with hmem | hmem
        · rcases List.mem_append.mp hmem with hmem₁ | hmem₁
          · rcases pops op hmem₁ with habs | hg
            · exact absurd habs (List.not_mem_nil op)
            · exact hg
          · cases hrows : s₁.link_rows with
            | nil => rw [hrows] at hmem₁; exact absurd hmem₁ (by simp [flush_call])
            | cons r rs =>
                rw [hrows] at hmem₁
                have hop' : op = (⟨Dest.link, r :: rs⟩ : DbOp) := by
                  simpa [flush_call] using hmem₁
                rw [hop']
                exact ⟨by simp, by rw [← hrows]; exact Nat.le_of_lt p₁⟩
        · cases hrows : s₁.col_rows with
          | nil => rw [hrows] at hmem; exact absurd hmem (by simp [flush_call])
          | cons r rs =>
              rw [hrows] at hmem
              have hop' : op = (⟨Dest.collection, r :: rs⟩ : DbOp) := by
                simpa [flush_call] using hmem
              rw [hop']
              exact ⟨by simp, by rw [← hrows]; exact Nat.le_of_lt p₂⟩
      simp only [Bool.and_eq_true, Bool.not_eq_true', decide_eq_true_eq]
      constructor
      · simpa using hgood.1
      · exact hgood.2

/-- Witness for C5 on a four-entry drained table (one entry with zero
hits). -/
theorem c5_witness :
    (process_batch_task exEntries).isOk = true
  ∧ ops_rows (ok_ops (process_batch_task exEntries)) .link = link_rows_of exEntries
  ∧ ops_rows (ok_ops (process_batch_task exEntries)) .collection = col_rows_of exEntries
  ∧ (ok_ops (process_batch_task exEntries)).all
      (fun op => !op.rows.isEmpty && decide (op.rows.length ≤ PBT_CHUNK_SIZE)) = true
  ∧ flush_call .link [] = [] ∧ flush_call .collection [] = [] :=
  c5_chunks_route_each_entry_once exEntries (by decide)

/-! ## C6 -/

/-- The entry loop of process_batch with a healthy store: it succeeds, and
the flush counter advances by the number of chunks written. -/
theorem fm_aux_none_spec (l : List (Int × MetricsValue)) :
    ∀ s : FmSt,
      (∀ e ∈ l, unix_ts_valid e.2.last_access_s = true) →
      ∃ full s₁, fm_aux none l s = (full, .ok s₁)
        ∧ s₁.count = s.count + full.length := by
  induction l with
  | nil => intro s _; exact ⟨[], s, rfl, by simp⟩
  | cons e rest ih =>
      intro s hval
      have hv : unix_ts_valid e.2.last_access_s = true :=
        hval _ (List.mem_cons_self _ _)
      have hval' : ∀ x ∈ rest, unix_ts_valid x.2.last_access_s = true :=
        fun x hx => hval x (List.mem_cons_of_mem _ hx)
      by_cases h0 : e.2.hits = 0
      · obtain ⟨full, s₁, hrec, hcount⟩ := ih s hval'
        exact ⟨full, s₁, by simp [fm_aux, h0, hrec], hcount⟩
      · by_cases hfull : s.rows.length + 1 = FM_CHUNK_SIZE
        · obtain ⟨att, s₁, hrec, hcount⟩ := ih ⟨[], s.count + 1⟩ hval'
          refine ⟨(s.rows ++ [(e.1, e.2.hits, e.2.last_access_s)]) :: att, s₁, ?_, ?_⟩
          · simp [fm_aux, h0, hv, hfull, hrec]
          · simp only [List.length_cons]
            simp at hcount
            omega
        · obtain ⟨full, s₁, hrec, hcount⟩ :=
            ih ⟨s.rows ++ [(e.1, e.2.hits, e.2.last_access_s)], s.count⟩ hval'
          exact ⟨full, s₁, by simp [fm_aux, h0, hv, hfull, hrec], by simpa using hcount⟩

/-- Entry loop with the n-th durable chunk write failing, against the same
loop with a healthy store: the attempted chunks are the prefix of the
healthy run up to and including the failing one, and the cycle ends in the
error. -/
theorem fm_aux_fail_cut (l : List (Int × MetricsValue)) :
    ∀ (s : FmSt) (k : Nat), s.count ≤ k →
      (∀ e ∈ l, unix_ts_valid e.2.last_access_s = true) →
      ∃ full s₁, fm_aux none l s = (full, .ok s₁)
        ∧ s₁.count = s.count + full.length
        ∧ fm_aux (some k) l s =
            (if k - s.count < full.length
             then (full.take (k - s.count + 1), .error ())
             else (full, .ok s₁)) := by
  induction l with
  | nil =>
      intro s k hk _
      exact ⟨[], s, rfl, by simp, by simp [fm_aux]⟩
  | cons e rest ih =>
      intro s k hk hval
      have hv : unix_ts_valid e.2.last_access_s = true :=
        hval _ (List.mem_cons_self _ _)
      have hval' : ∀ x ∈ rest, unix_ts_valid x.2.last_access_s = true :=
        fun x hx => hval x (List.mem_cons_of_mem _ hx)
      by_cases h0 : e.2.hits = 0
      · obtain ⟨full, s₁, hnone, hcount, hsome⟩ := ih s k hk hval'
        refine ⟨full, s₁, by simp [fm_aux, h0, hnone], hcount, ?_⟩
        have hred : fm_aux (some k) (e :: rest) s = fm_aux (some k) rest s := by
          simp [fm_aux, h0]
        rw [hred, hsome]
      · by_cases hfull : s.rows.length + 1 = FM_CHUNK_SIZE
        · by_cases hke : k = s.count
          · obtain ⟨att, s₁, hnone, hcount⟩ := fm_aux_none_spec rest ⟨[], s.count + 1⟩ hval'
            refine ⟨(s.rows ++ [(e.1, e.2.hits, e.2.last_access_s)]) :: att, s₁, ?_, ?_, ?_⟩
            · simp [fm_aux, h0, hv, hfull, hnone]
            · simp only [List.length_cons]
              simp at hcount
              omega
            · subst hke
              have hred : fm_aux (some s.count) (e :: rest) s
                  = ([s.rows ++ [(e.1, e.2.hits, e.2.last_access_s)]], .error ()) := by
                simp [fm_aux, h0, hv, hfull]
              rw [hred, if_pos (by simp)]
              simp
          · have hk' : s.count + 1 ≤ k := Nat.lt_of_le_of_ne hk (Ne.symm hke)
            obtain ⟨att, s₁, hnone, hcount, hsome⟩ := ih ⟨[], s.count + 1⟩ k hk' hval'
            refine ⟨(s.rows ++ [(e.1, e.2.hits, e.2.last_access_s)]) :: att, s₁, ?_, ?_, ?_⟩
            · simp [fm_aux, h0, hv, hfull, hnone]
            · simp only [List.length_cons]
              simp at hcount
              omega
            · have hred : fm_aux (some k) (e :: rest) s
                  = ((s.rows ++ [(e.1, e.2.hits, e.2.last_access_s)])
                      :: (fm_aux (some k) rest ⟨[], s.count + 1⟩).1,
                     (fm_aux (some k) rest ⟨[], s.count + 1⟩).2) := by
                simp [fm_aux, h0, hv, hfull, hke]
              by_cases hlt : k - (s.count + 1) < att.length
              · rw [hred, hsome, if_pos hlt]
                simp only [List.length_cons]
                rw [if_pos (show k - s.count < att.length + 1 by omega)]
                have harith : k - s.count + 1 = (k - (s.count + 1) + 1) + 1 := by omega
                rw [harith, List.take_succ_cons]
              · rw [hred, hsome, if_neg hlt]
                simp only [List.length_cons]
                rw [if_neg (show ¬ k - s.count < att.length + 1 by omega)]
        · obtain ⟨full, s₁, hnone, hcount, hsome⟩ :=
            ih ⟨s.rows ++ [(e.1, e.2.hits, e.2.last_access_s)], s.count⟩ k hk hval'
          refine ⟨full, s₁, by simp [fm_aux, h0, hv, hfull, hnone], by simpa using hcount, ?_⟩
          have hred : fm_aux (some k) (e :: rest) s
              = fm_aux (some k) rest ⟨s.rows ++ [(e.1, e.2.hits, e.2.last_access_s)], s.count⟩ := by
            simp [fm_aux, h0, hv, hfull]
          rw [hred, hsome]

theorem fm_run_length (cs : List (List (Int × MetricsValue))) :
    ∀ fa : Nat → Option Nat, (fm_run fa cs).length = cs.length := by
  induction cs with
  | nil => intro fa; rfl
  | cons m ms ih =>
      intro fa
      simp [fm_run, ih]

theorem fm_run_getD (cs : List (List (Int × MetricsValue))) :
    ∀ (fa : Nat → Option Nat) (j : Nat), j < cs.length →
      (fm_run fa cs).getD j ([], false) = fm_cycle (fa j) (cs.getD j []) := by
  induction cs with
  | nil => intro fa j hj; simp at hj
  | cons m ms ih =>
      intro fa j hj
      cases j with
      | zero => rfl
      | succ j =>
          have := ih (fun n => fa (n + 1)) j (by simpa using hj)
          simpa [fm_run] using this

/-- C6: when the durable write of the k-th chunk of a cycle fails, the cycle
ends with that error and the chunks attempted are exactly the healthy
prefix up to and including the failing one — no later chunk of that cycle
is attempted and its data is dropped; the run loop logs the failure (the
logged flag of the cycle output) and every cycle of the loop processes its
own swapped-out map, unaffected by failures of earlier cycles. -/
theorem c6_failed_chunk_ends_cycle (entries : List (Int × MetricsValue)) (k : Nat)
    (cycles : List (List (Int × MetricsValue))) (failAt : Nat → Option Nat) (i : Nat)
    (hval : ∀ e ∈ entries, unix_ts_valid e.2.last_access_s = true)
    (hk : k < (fm_process_batch none entries).1.length)
    (hi : i < cycles.length) :
    fm_process_batch (some k) entries
      = ((fm_process_batch none entries).1.take (k + 1), .error ())
  ∧ (fm_cycle (some k) entries).2 = true
  ∧ (fm_run failAt cycles).length = cycles.length
  ∧ (fm_run failAt cycles).getD i ([], false)
      = fm_cycle (failAt i) (cycles.getD i []) := by
  have hmain : fm_process_batch (some k) entries
      = ((fm_process_batch none entries).1.take (k + 1), .error ()) := by
    by_cases hemp : entries.isEmpty
    · exfalso
      simp [fm_process_batch, hemp] at hk
    · obtain ⟨full, s₁, hnone, hcount, hsome⟩ :=
        fm_aux_fail_cut entries ⟨[], 0⟩ k (Nat.zero_le k) hval
      have hcount' : s₁.count = full.length := by simpa using hcount
      by_cases hrem : s₁.rows.isEmpty
      · have hn : fm_process_batch none entries = (full, .ok ()) := by
          simp [fm_process_batch, hemp, hnone, hrem]
        have hk' : k < full.length := by
          rw [hn] at hk
          simpa using hk
        have haux : fm_aux (some k) entries ⟨[], 0⟩
            = (full.take (k + 1), .error ()) := by
          rw [hsome, if_pos (by simpa using hk')]
          simp
        rw [hn]
        simp [fm_process_batch, hemp, haux]
      · have hn : fm_process_batch none entries = (full ++ [s₁.rows], .ok ()) := by
          simp [fm_process_batch, hemp, hnone, hrem]
        by_cases hk2 : k < full.length
        · have haux : fm_aux (some k) entries ⟨[], 0⟩
              = (full.take (k + 1), .error ()) := by
            rw [hsome, if_pos (by simpa using hk2)]
            simp
          have htake : (full ++ [s₁.rows]).take (k + 1) = full.take (k + 1) :=
            List.take_append_of_le_length hk2
          rw [hn]
          simp only [htake]
          simp [fm_process_batch, hemp, haux]
        · have hkeq : k = full.length := by
            rw [hn] at hk
            simp at hk
            omega
          have haux : fm_aux (some k) entries ⟨[], 0⟩ = (full, .ok s₁) := by
            rw [hsome, if_neg (by simpa using hk2)]
          have hbeq : (some k == some s₁.count) = true := by
            simp [hkeq, hcount']
          have hs : fm_process_batch (some k) entries
              = (full ++ [s₁.rows], .error ()) := by
            simp [fm_process_batch, hemp, haux, hrem, hbeq]
          have htake : (full ++ [s₁.rows]).take (k + 1) = full ++ [s₁.rows] := by
            apply List.take_of_length_le
            simp [hkeq]
          rw [hn, hs]
          simp only [htake]
  refine ⟨hmain, ?_, fm_run_length cycles failAt, fm_run_getD cycles failAt i hi⟩
  simp [fm_cycle, hmain]

/-- Witness for C6: a one-entry cycle whose only chunk write fails, inside a
two-cycle loop whose second cycle still runs. -/
theorem c6_witness :
    fm_process_batch (some 0) [((5 : Int), { hits := 3, last_access_s := 100 })]
      = ((fm_process_batch none [((5 : Int), { hits := 3, last_access_s := 100 })]).1.take 1,
         .error ())
  ∧ (fm_cycle (some 0) [((5 : Int), { hits := 3, last_access_s := 100 })]).2 = true
  ∧ (fm_run (fun _ => some 0)
        [[((5 : Int), { hits := 3, last_access_s := 100 })],
         [((7 : Int), { hits := 1, last_access_s := 200 })]]).length = 2
  ∧ (fm_run (fun _ => some 0)
        [[((5 : Int), { hits := 3, last_access_s := 100 })],
         [((7 : Int), { hits := 1, last_access_s := 200 })]]).getD 1 ([], false)
      = fm_cycle (some 0)
          ([[((5 : Int), { hits := 3, last_access_s := 100 })],
            [((7 : Int), { hits := 1, last_access_s := 200 })]].getD 1 []) :=
  c6_failed_chunk_ends_cycle [((5 : Int), { hits := 3, last_access_s := 100 })] 0
    [[((5 : Int), { hits := 3, last_access_s := 100 })],
     [((7 : Int), { hits := 1, last_access_s := 200 })]]
    (fun _ => some 0) 1 (by decide) (by decide) (by decide)

/-! ## C7 -/

theorem exec_stmts_all_ok (l : List PartStmt) :
    ∀ n : Nat, exec_stmts (fun _ => true) l n = (l, .ok ()) := by
  induction l with
  | nil => intro n; rfl
  | cons st rest ih =>
      intro n
      simp [exec_stmts, ih]

/-- With the first failing statement at index k, execution attempts exactly
the statements up to and including index k and rethrows the error. -/
theorem exec_stmts_fail_cut (orc : Nat → Bool) (k : Nat)
    (hbefore : ∀ j, j < k → orc j = true) (hfail : orc k = false) :
    ∀ (l : List PartStmt) (n : Nat), n ≤ k →
      exec_stmts orc l n =
        (if k - n < l.length then (l.take (k - n + 1), .error ())
         else (l, .ok ())) := by
  intro l
  induction l with
  | nil => intro n hn; simp [exec_stmts]
  | cons st rest ih =>
      intro n hn
      by_cases hkn : n = k
      · subst hkn
        have hred : exec_stmts orc (st :: rest) n = ([st], .error ()) := by
          simp [exec_stmts, hfail]
        rw [hred, if_pos (by simp [Nat.sub_self])]
        simp [Nat.sub_self]
      · have hne : n < k := lt_of_le_of_ne hn hkn
        have horc : orc n = true := hbefore n hne
        have hred : exec_stmts orc (st :: rest) n
            = (st :: (exec_stmts orc rest (n + 1)).1, (exec_stmts orc rest (n + 1)).2) := by
          simp [exec_stmts, horc]
        rw [hred, ih (n + 1) hne]
        by_cases hlt : k - (n + 1) < rest.length
        · rw [if_pos hlt]
          simp only [List.length_cons]
          rw [if_pos (by omega)]
          have harith : k - n + 1 = (k - (n + 1) + 1) + 1 := by omega
          rw [harith, List.take_succ_cons]
        · rw [if_neg hlt]
          simp only [List.length_cons]
          rw [if_neg (by omega)]

/-- C7 counterexample: with the very first creation statement of the tick
failing, the task attempts only that statement — not even the second table
of offset 0, and none of offsets 1 to 3 — refuting the claim that creation
is still attempted for every remaining offset of the same tick. -/
theorem c7_counterexample :
    create_partitions_task true (fun n => decide (n ≠ 0)) 20000
      = ([{ table := .daily, day_from := 20000, day_to := 20001 }], .error ())
  ∧ ((create_partitions_task true (fun n => decide (n ≠ 0)) 20000).1.filter
        (fun st => decide (st.day_from ≠ 20000))).length = 0 := by
  exact ⟨rfl, rfl⟩

/-- C7 amended: a creation failure ends the tick at once: the attempted
statements are exactly the issue-order prefix through the failing one (the
same offset following statement and all later offsets are not attempted)
and the error is returned to the caller, which logs it; with no failure all
eight statements of the tick run and the task succeeds. -/
theorem c7_partition_failure_aborts_tick (orc : Nat → Bool) (today : Int) (k : Nat)
    (hk : k < 8) (hbefore : ∀ j, j < k → orc j = true) (hfail : orc k = false) :
    create_partitions_task true orc today
      = ((part_stmts today).take (k + 1), .error ())
  ∧ create_partitions_task true (fun _ => true) today = (part_stmts today, .ok ()) := by
  have hlen : (part_stmts today).length = 8 := rfl
  constructor
  · show exec_stmts orc (part_stmts today) 0 = _
    rw [exec_stmts_fail_cut orc k hbefore hfail (part_stmts today) 0 (Nat.zero_le k)]
    rw [if_pos (by rw [hlen]; omega)]
    simp
  · exact exec_stmts_all_ok (part_stmts today) 0

/-- Witness for C7 amended: the failure strikes the third statement of the
tick (the daily table of offset 1). -/
theorem c7_witness :
    create_partitions_task true (fun n => decide (n ≠ 2)) 100
      = ((part_stmts 100).take 3, .error ())
  ∧ create_partitions_task true (fun _ => true) 100 = (part_stmts 100, .ok ()) :=
  c7_partition_failure_aborts_tick (fun n => decide (n ≠ 2)) 100 2
    (by decide) (by decide) (by decide)

/-! ## C8 -/

/-- C8 counterexample: for a job with interval 5 and no work to do, the
first invocation starts at time 0, not after one full interval; and with a
first invocation lasting 12, the second and third invocations both start at
time 12 — two starts within one interval (tokio fires the missed ticks in a
burst), refuting both the not-immediately part and the at-most-once-per-
interval part of the claim. -/
theorem c8_counterexample :
    invocation_start 5 [] 0 = 0
  ∧ (0 : Nat) < 5
  ∧ invocation_start 5 [12, 0] 1 = 12
  ∧ invocation_start 5 [12, 0] 2 = 12 := by
  refine ⟨rfl, by decide, by decide, by decide⟩

/-- C8 amended: the first invocation starts immediately at registration
(the doc comment on spawn_task says exactly that); for every duration list
ds — overruns included — invocation j + 1 starts no earlier than its tick
target (j + 1 intervals after registration) and no earlier than the end of
invocation j, so invocations of one job never overlap; and for a duration
list in which every invocation lasts at most one interval, invocation m
starts exactly at m intervals — at most one invocation per interval in
that punctual case. -/
theorem c8_tick_timing (iv : Nat) (ds ds' : List Nat) (j m : Nat)
    (hds : ∀ d ∈ ds', d ≤ iv) :
    invocation_start iv ds 0 = 0
  ∧ invocation_start iv ds j + ds.getD j 0 ≤ invocation_start iv ds (j + 1)
  ∧ (j + 1) * iv ≤ invocation_start iv ds (j + 1)
  ∧ invocation_start iv ds' m = m * iv := by
  have hgetD : ∀ n, List.getD ds' n 0 ≤ iv := by
    intro n
    rcases Nat.lt_or_ge n ds'.length with h | h
    · rw [List.getD_eq_getElem _ _ h]
      exact hds _ (List.getElem_mem h)
    · rw [List.getD_eq_default _ _ h]
      exact Nat.zero_le iv
  have hexact : ∀ n, invocation_start iv ds' n = n * iv := by
    intro n
    induction n with
    | zero => simp [invocation_start]
    | succ n ihn =>
        have hstep : invocation_start iv ds' (n + 1)
            = max ((n + 1) * iv) (invocation_start iv ds' n + List.getD ds' n 0) := rfl
        rw [hstep, ihn]
        have h1 : n * iv + List.getD ds' n 0 ≤ (n + 1) * iv := by
          have := hgetD n
          have h2 : (n + 1) * iv = n * iv + iv := by ring
          omega
        exact max_eq_left h1
  exact ⟨rfl, le_max_right _ _, le_max_left _ _, hexact m⟩

/-- Witness for C8 amended: the no-overlap and tick-target bounds are
exercised on an overrunning first invocation (duration 12 against interval
5, where the second invocation starts late, at time 12), and the exact
timing on a separate punctual duration list. -/
theorem c8_witness :
    invocation_start 5 [12, 0] 0 = 0
  ∧ invocation_start 5 [12, 0] 1 + [12, 0].getD 1 0 ≤ invocation_start 5 [12, 0] 2
  ∧ 2 * 5 ≤ invocation_start 5 [12, 0] 2
  ∧ invocation_start 5 [3, 2, 5] 2 = 2 * 5 :=
  c8_tick_timing 5 [12, 0] [3, 2, 5] 1 2 (by decide)

/-! ## C9 -/

/-- C9: the claim says every hot-path counter increment completes without
panicking for every possible current date-time.  Metrics::log computes
week_day = weekday().number_from_monday(), which is 7 on Sundays, and
indexes self.week_days[week_day] on an array of length 7: on any Sunday
the access is out of bounds and the call panics.  On the other days the
indices are in bounds (Monday lands in slot 1; slot 0 is never used). -/
theorem c9_log_sunday_out_of_bounds :
    Weekday.sunday.number_from_monday = 7
  ∧ log_index .sunday 12 = none
  ∧ log_index .saturday 23 = some (6, 23)
  ∧ log_index .monday 0 = some (1, 0) := by
  refine ⟨rfl, rfl, rfl, rfl⟩

/-! ## C10 -/

/-- C10: flush_to_db runs the daily-metrics upsert and the links_main
last_seen set-if-stale update inside one transaction: the flush either
fails with the durable state unchanged (any failure point: begin, either
statement, commit) or succeeds with both updates applied; the same holds
for flush_collection_to_db against the collection tables.  A call with
empty columns changes nothing and succeeds. -/
theorem c10_flush_transaction_atomic (o : TxOrc) (db : Db) (today : Int)
    (rows : List Row) :
    flush_to_db o db today rows
      = (if rows.isEmpty then (db, .ok ())
         else if o.all_ok then
           (⟨upsert_rows db.daily_metrics today rows,
             set_last_seen db.links_last_seen today (rows.map Prod.fst),
             db.collection_metrics, db.collections_last_seen⟩, .ok ())
         else (db, .error ()))
  ∧ flush_collection_to_db o db today rows
      = (if rows.isEmpty then (db, .ok ())
         else if o.all_ok then
           (⟨db.daily_metrics, db.links_last_seen,
             upsert_rows db.collection_metrics today rows,
             set_last_seen db.collections_last_seen today (rows.map Prod.fst)⟩, .ok ())
         else (db, .error ())) := by
  obtain ⟨b1, b2, b3, b4⟩ := o
  cases b1 <;> cases b2 <;> cases b3 <;> cases b4 <;>
    by_cases h : rows.isEmpty <;>
      simp [flush_to_db, flush_collection_to_db, TxOrc.all_ok, h]

end RustSep
